import Mathlib

/-!
# Verification of the lance game-synchronization engine core

A shallow embedding, in Lean 4, of the parts of the `lance` TypeScript
repository that the specification's claims are about:

* `Utils.hashStr` (src/src/lib/Utils.ts),
* `GameWorld.getNewId` / `addObject` / `removeObject` (src/unnamed/part_000),
* `GameEngine.addObjectToWorld` / `removeObjectFromWorld` (src/src/GameEngine.ts),
* `TwoVector` and the bending machinery of `PhysicalObject2D`
  (src/unnamed/part_004, src/src/serialize/PhysicalObject2D.ts),
* `Serializable.serialize` / `prunedStringsClone` (src/unnamed/part_003),
* the server input queues (src/src/ServerEngine.ts), and
* the re-enactment phase of `ExtrapolateStrategy.applySync` (src/unnamed/part_005).

JavaScript numbers are embedded as `ℚ` where real arithmetic happens
(every concrete computation in scope is exact in binary64, mirrored by
exact rational arithmetic), and as `ℕ` for counters and identifiers.
Machine 32-bit bitwise operations are embedded as arithmetic on `ℕ`
modulo `2 ^ 32`.
-/

namespace Lance

/-! ## Utils.hashStr (src/src/lib/Utils.ts, lines 3-18)

```ts
static hashStr(str: string, bits: number) {
    let hash = 5381;
    let i = str.length;
    bits = bits ? bits : 8;
    while (i) {
        hash = (hash * 33) ^ str.charCodeAt(--i);
    }
    hash = hash >>> 0;
    hash = hash % (Math.pow(2, bits) - 1);
    return hash;
}
```

A string is embedded as its list of UTF-16 code units (each `< 2 ^ 16`).
The loop walks the string from the last index down to 0, so it folds over
the reversed list.  JavaScript's `^` first converts both operands with
`ToInt32`; we track the 32-bit pattern of `hash` as a natural number
`< 2 ^ 32` (signed value and unsigned pattern agree modulo `2 ^ 32`, and
`hash * 33` is exact in binary64 since `|hash| * 33 < 2 ^ 53`), so one
loop iteration is `hash := ((hash * 33) % 2 ^ 32) ^^^ c`.  The final
`hash >>> 0` is the identity on that pattern.  `bits ? bits : 8` replaces
a zero (falsy) bits argument by 8. -/

/-- One iteration of the hashStr loop: `hash = (hash * 33) ^ c` with
JavaScript `ToInt32` coercion, on the unsigned 32-bit pattern. -/
def hashStep (hash c : ℕ) : ℕ :=
  ((hash * 33) % 2 ^ 32) ^^^ (c % 2 ^ 32)

/-- `Utils.hashStr`.  `str` is the list of UTF-16 code units of the input
string; the `while (i)` loop consumes the string from its last character
to its first, i.e. folds over `str.reverse`. -/
def hashStr (str : List ℕ) (bits : ℕ) : ℕ :=
  let bits' := if bits = 0 then 8 else bits
  let hash := str.reverse.foldl hashStep 5381
  hash % (2 ^ bits' - 1)

/-! ## GameWorld (src/unnamed/part_000)

`world.objects` is a JavaScript object keyed by numeric id.  We embed it
as an association list `List (ℕ × GObj)` with unique keys (every write
goes through `addObject`, which overwrites the entry for an existing key),
together with the counters of the class. -/

/-- The attributes of a `GameObject` that the claims need.  Every
`GameObject` initializes `inputId` to 0 (src/src/serialize/PhysicalObject2D.ts,
line 268 of the concatenated file: `inputId: number = 0`), so the field is
total here. -/
structure GObj where
  id : ℕ
  inputId : ℕ
  playerId : ℕ
deriving DecidableEq, Repr

/-- Key lookup in an association list, as `obj[key]` on a JS object. -/
def alistLookup (l : List (ℕ × GObj)) (k : ℕ) : Option GObj :=
  match l.find? (fun e => e.1 = k) with
  | some e => some e.2
  | none => none

/-- Key removal, as `delete obj[key]`. -/
def alistErase (l : List (ℕ × GObj)) (k : ℕ) : List (ℕ × GObj) :=
  l.filter (fun e => ¬ e.1 = k)

/-- Key write, as `obj[key] = v` (overwrites an existing entry). -/
def alistInsert (l : List (ℕ × GObj)) (k : ℕ) (v : GObj) : List (ℕ × GObj) :=
  if (l.find? (fun e => e.1 = k)).isSome then
    l.map (fun e => if e.1 = k then (k, v) else e)
  else
    l ++ [(k, v)]

/-- The `GameWorld` state: `objects`, and the counters. -/
structure World where
  stepCount : ℕ
  playerCount : ℕ
  idCount : ℕ
  objects : List (ℕ × GObj)
deriving DecidableEq, Repr

/-- The key set of `world.objects`: `possibleId in this.objects`. -/
def World.hasId (w : World) (k : ℕ) : Bool :=
  (alistLookup w.objects k).isSome

/-- The id scan of `getNewId`:
```ts
let possibleId = this.idCount;
while (possibleId in this.objects)
    possibleId++;
```
embedded with explicit fuel (the loop terminates because the world holds
finitely many objects; `getNewId` passes fuel `objects.length + 1`, which
`getNewId_spec` proves sufficient). -/
def findFreeId (w : World) : ℕ → ℕ → ℕ
  | 0, possibleId => possibleId
  | fuel + 1, possibleId =>
    if w.hasId possibleId then findFreeId w fuel (possibleId + 1) else possibleId

/-- `GameWorld.getNewId` (src/unnamed/part_000, lines 71-79): scan upward
from `idCount` for a free id, set `idCount` past it, return it. -/
def World.getNewId (w : World) : ℕ × World :=
  let possibleId := findFreeId w (w.objects.length + 1) w.idCount
  (possibleId, { w with idCount := possibleId + 1 })

/-- `GameWorld.addObject` (lines 149-151): `this.objects[object.id] = object`. -/
def World.addObject (w : World) (o : GObj) : World :=
  { w with objects := alistInsert w.objects o.id o }

/-- `GameWorld.removeObject` (lines 158-160): `delete this.objects[id]`. -/
def World.removeObject (w : World) (id : ℕ) : World :=
  { w with objects := alistErase w.objects id }

/-! ## GameEngine world mutation (src/src/GameEngine.ts)

`removeObjectFromWorld` (lines 230-245) and `addObjectToWorld`
(lines 169-198).  Calls to `onRemoveFromWorld` / `onAddToWorld` and the
`emit` calls are recorded as an ordered event list.  A thrown `Error` is
recorded in the `threw` flag together with the world as it stands when
the exception propagates (the existence check precedes every mutation,
so on a throw the world is whatever it was on entry). -/

/-- The observable effects of the engine's add/remove operations. -/
inductive EngineEvent where
  | onRemoveFromWorld (id : ℕ)
  | objectDestroyed (id : ℕ)
  | onAddToWorld (id : ℕ)
  | objectAdded (id : ℕ)
deriving DecidableEq, Repr

/-- Result of `removeObjectFromWorld`: whether it threw, the world after
the call, and the hook/emit events in order. -/
structure RemoveOutcome where
  threw : Bool
  world : World
  events : List EngineEvent
deriving DecidableEq, Repr

/-- `GameEngine.removeObjectFromWorld` (src/src/GameEngine.ts, lines
230-245).  `this.world.objects[objectId]` is falsy exactly when no entry
exists (stored objects are class instances, hence truthy); in that case
the method throws before touching anything.  Otherwise it calls the
object's `onRemoveFromWorld`, emits `objectDestroyed`, and deletes the
map entry, in that order. -/
def removeObjectFromWorld (w : World) (objectId : ℕ) : RemoveOutcome :=
  match alistLookup w.objects objectId with
  | none => { threw := true, world := w, events := [] }
  | some _ =>
    { threw := false
      world := w.removeObject objectId
      events := [.onRemoveFromWorld objectId, .objectDestroyed objectId] }

/-- `GameEngine.addObjectToWorld` (src/src/GameEngine.ts, lines 169-198).
When the incoming object's id is in the client id space, the world is
scanned (`forEachObject`, stopping at the first hit) for any object whose
`inputId` equals the incoming one — every `GameObject` owns an `inputId`
(initialized to 0), so the `hasOwnProperty('inputId')` test always
passes.  On a hit the method returns `undefined` without adding; else it
registers the object, calls `onAddToWorld` and emits `objectAdded`. -/
def addObjectToWorld (w : World) (clientIDSpace : ℕ) (object : GObj) :
    World × List EngineEvent × Option GObj :=
  if clientIDSpace ≤ object.id ∧ w.objects.any (fun e => e.2.inputId = object.inputId) then
    (w, [], none)
  else
    (w.addObject object, [.onAddToWorld object.id, .objectAdded object.id], some object)

/-! ## TwoVector (src/unnamed/part_004) and the bending machinery of
PhysicalObject2D (src/src/serialize/PhysicalObject2D.ts)

Components are embedded as `ℚ`.  Every concrete computation exercised by
the claims is exact in binary64 (sums and products of small dyadic
rationals), so the `ℚ` model and the JavaScript doubles agree there;
`Math.PI` is embedded as its exact binary64 value. -/

/-- The exact value of the binary64 constant `Math.PI`. -/
def mathPI : ℚ := 884279719003555 / 281474976710656

/-- `TwoVector` (src/unnamed/part_004).  The TS methods mutate in place
and return `this`; here each returns the new vector. -/
structure TwoVector where
  x : ℚ
  y : ℚ
deriving DecidableEq, Repr

/-- `TwoVector.add` (lines 70-75). -/
def TwoVector.add (self other : TwoVector) : TwoVector :=
  ⟨self.x + other.x, self.y + other.y⟩

/-- `TwoVector.subtract` (lines 83-88). -/
def TwoVector.subtract (self other : TwoVector) : TwoVector :=
  ⟨self.x - other.x, self.y - other.y⟩

/-- `TwoVector.multiplyScalar` (lines 57-62). -/
def TwoVector.multiplyScalar (self : TwoVector) (s : ℚ) : TwoVector :=
  ⟨self.x * s, self.y * s⟩

/-- `TwoVector.clone` (lines 127-129). -/
def TwoVector.clone (self : TwoVector) : TwoVector :=
  ⟨self.x, self.y⟩

/-- `TwoVector.getBendingDelta` (src/unnamed/part_004, lines 156-171),
for bending options that carry no `min`/`max` bounds.  This is the case
reached from `PhysicalObject2D.bendToCurrent`: `PhysicalObject2D`'s
`bending` getter returns `{}` (src/src/serialize/PhysicalObject2D.ts,
lines 121-129), so `positionBending` and `velocityBending` are
`Object.assign({}, { increments, percent }, undefined)` — they hold only
`increments` and `percent` — and both `typeof options.max === 'number'`
and `typeof options.min === 'number'` guards are false, making the
zero-collapse branch dead.
```ts
let increment = target.clone();
increment.subtract(this);
increment.multiplyScalar(options.percent);
increment.multiplyScalar(1 / options.increments);
return increment;
``` -/
def TwoVector.getBendingDelta (self target : TwoVector) (increments : ℕ)
    (percent : ℚ) : TwoVector :=
  let increment := ((target.clone).subtract self).multiplyScalar percent
  increment.multiplyScalar (1 / (increments : ℚ))

/-- `interpolateDeltaWithWrapping` (src/src/lib/MathUtils.ts, lines
17-25).  The mutated `start`/`finish` pair is built first, then
`(end - start) * percent` is returned; the `console.log` branch has no
effect on the value. -/
def interpolateDeltaWithWrapping (start finish percent wrapMin wrapMax : ℚ) : ℚ :=
  let wrapTest := wrapMax - wrapMin
  let p : ℚ × ℚ :=
    if start - finish > wrapTest / 2 then (start, finish + wrapTest)
    else if finish - start > wrapTest / 2 then (start + wrapTest, finish)
    else (start, finish)
  (p.2 - p.1) * percent

/-- The four numeric fields captured by `bendingTarget` (the snapshot
object is a bare instance filled by `syncTo`, which copies `position`,
`angle`, `angularVelocity` and `velocity` —
src/src/serialize/PhysicalObject2D.ts, lines 187-198). -/
structure BendSnapshot where
  position : TwoVector
  velocity : TwoVector
  angle : ℚ
  angularVelocity : ℚ
deriving DecidableEq, Repr

/-- The bending-relevant state of a `PhysicalObject2D`
(src/src/serialize/PhysicalObject2D.ts, lines 11-26).  The constructor
leaves `bendingPositionDelta` and `bendingVelocityDelta` undefined and
sets `bendingIncrements = 0`; since `applyIncrementalBending` returns
early whenever `bendingIncrements` is 0, the deltas are only ever read
after `bendToCurrent` has set them, so they are embedded as plain fields
(zero until first set). -/
structure PhysicalObject2D where
  position : TwoVector
  velocity : TwoVector
  angle : ℚ
  angularVelocity : ℚ
  bendingTarget : Option BendSnapshot
  bendingIncrements : ℕ
  bendingPositionDelta : TwoVector
  bendingVelocityDelta : TwoVector
  bendingAVDelta : ℚ
  bendingAngleDelta : ℚ
deriving DecidableEq, Repr

/-- `PhysicalObject2D.bendToCurrent(fromSource, percent, worldSettings,
isLocal, increments)` (src/src/serialize/PhysicalObject2D.ts, lines
146-185), for an object of class `PhysicalObject2D` itself, whose
`bending` getter returns `{}`: all four per-field bending option records
degenerate to `{ increments, percent }` (and the `isLocal` overrides
assign nothing), so `worldSettings` and `isLocal` do not influence the
result and are dropped from the embedding.  Note the source multiplies
the angular-velocity delta by `incrementScale * avBending.percent`, i.e.
by `percent` twice.  The deltas are computed from the pre-revert state,
`bendingTarget` snapshots that state via `syncTo`, and then position,
angle, angularVelocity and velocity are reverted to `fromSource`. -/
def bendToCurrent (self fromSource : PhysicalObject2D) (percent : ℚ)
    (increments : ℕ) : PhysicalObject2D :=
  let incrementScale := percent / (increments : ℚ)
  { position := fromSource.position.clone
    velocity := fromSource.velocity.clone
    angle := fromSource.angle
    angularVelocity := fromSource.angularVelocity
    bendingTarget := some
      ⟨self.position.clone, self.velocity.clone, self.angle, self.angularVelocity⟩
    bendingIncrements := increments
    bendingPositionDelta := fromSource.position.getBendingDelta self.position increments percent
    bendingVelocityDelta := fromSource.velocity.getBendingDelta self.velocity increments percent
    bendingAVDelta := (self.angularVelocity - fromSource.angularVelocity) * incrementScale * percent
    bendingAngleDelta :=
      interpolateDeltaWithWrapping fromSource.angle self.angle percent 0 (2 * mathPI)
        / (increments : ℚ) }

/-- `PhysicalObject2D.applyIncrementalBending(stepDesc)`
(src/src/serialize/PhysicalObject2D.ts, lines 222-238).  `dt = none`
embeds a call without a step descriptor; `if (stepDesc && stepDesc.dt)`
is false for `dt == 0` (falsy), leaving `timeFactor = 1`. -/
def applyIncrementalBending (self : PhysicalObject2D) (dt : Option ℚ) :
    PhysicalObject2D :=
  if self.bendingIncrements = 0 then self
  else
    let timeFactor : ℚ :=
      match dt with
      | some d => if d = 0 then 1 else d / (1000 / 60)
      | none => 1
    let posDelta := (self.bendingPositionDelta.clone).multiplyScalar timeFactor
    let velDelta := (self.bendingVelocityDelta.clone).multiplyScalar timeFactor
    { self with
      position := self.position.add posDelta
      velocity := self.velocity.add velDelta
      angularVelocity := self.angularVelocity + self.bendingAVDelta * timeFactor
      angle := self.angle + self.bendingAngleDelta * timeFactor
      bendingIncrements := self.bendingIncrements - 1 }

/-- `n` successive calls of `applyIncrementalBending`, each with the same
step descriptor. -/
def applyBendingN (n : ℕ) (dt : Option ℚ) (self : PhysicalObject2D) :
    PhysicalObject2D :=
  match n with
  | 0 => self
  | m + 1 => applyBendingN m dt (applyIncrementalBending self dt)

/-! ## Serializable (src/unnamed/part_003)

The field-type tags of `BaseTypes.TYPES`, the value domain needed by the
string-pruning logic, `prunedStringsClone`, and `serialize`. -/

/-- `BaseTypes.TYPES` (the descriptor `type` tags consumed by
`Serializable`). -/
inductive BaseType where
  | UINT8
  | INT16
  | INT32
  | FLOAT32
  | STRING
  | CLASSINSTANCE
  | LIST
deriving DecidableEq, Repr

/-- The JavaScript values held in netScheme fields, as far as the
pruning logic observes them: strings, numbers, and `null` (the pruned
marker; `undefined` is collapsed into it, the claims never separate the
two). -/
inductive JsVal where
  | jsNull
  | str (s : String)
  | num (q : ℚ)
deriving DecidableEq, Repr

/-- A netScheme: the ordered field declarations of a class, as the
key-insertion order of the netScheme object literal. -/
abbrev NetScheme := List (String × BaseType)

/-- `netScheme[p].type === BaseTypes.TYPES.STRING`. -/
def isStringField (ns : NetScheme) (p : String) : Bool :=
  match ns.find? (fun e => e.1 = p) with
  | some e => decide (e.2 = .STRING)
  | none => false

/-- The `changedStrings` list of `prunedStringsClone`
(src/unnamed/part_003, lines 132-136):
```ts
let isString = (p) => netScheme[p].type === BaseTypes.TYPES.STRING;
let hasChanged = (p) => prevObject[p] !== this[p];
let changedStrings = Object.keys(netScheme).filter(isString).filter(hasChanged);
```
`cur` is the current object's field valuation (`this`), `prev` the
valuation of `serializer.deserialize(prevObject).obj`, the deserialized
form of the previously transmitted buffer. -/
def changedStrings (ns : NetScheme) (cur prev : String → JsVal) : List String :=
  ((ns.map Prod.fst).filter (fun p => isStringField ns p)).filter
    (fun p => decide (¬ prev p = cur p))

/-- `Serializable.prunedStringsClone(serializer, prevObject)`
(src/unnamed/part_003, lines 126-145), in the case where the previous
buffer exists (`prevObject` truthy; otherwise the method returns `this`
immediately).  The result is represented by its netScheme field
valuation (when the source returns `this` itself — no changed strings —
that valuation is the current one).  The clone loop is
```ts
let prunedCopy = new this.constructor(null, { id: null });
for (let p in (netScheme))
    prunedCopy[p] = changedStrings.indexOf(p) < 0 ? this[p] : null;
```
so a field is replaced by `null` exactly when it is in `changedStrings`,
i.e. exactly when it is a string field that CHANGED since the previous
send; unchanged strings and all non-string fields keep their current
values. -/
def prunedStringsClone (ns : NetScheme) (cur prev : String → JsVal) :
    List (String × JsVal) :=
  let changed := changedStrings ns cur prev
  if changed.length = 0 then ns.map (fun e => (e.1, cur e.1))
  else ns.map (fun e => (e.1, if changed.contains e.1 then JsVal.jsNull else cur e.1))

/-- The outcome of `Serializable.serialize`: a byte buffer, or a thrown
`TypeError`. -/
inductive SerializeOutcome where
  | ok (bytes : List ℕ)
  | typeError (msg : String)
deriving DecidableEq, Repr

/-- `Serializable.serialize(serializer, options)` (src/unnamed/part_003,
lines 28-124), called without a pre-supplied buffer.  `classId` is the
instance `classId` or `Utils.hashStr(this.constructor.name)`.  The field
loop header is
```ts
for (let property in (netScheme).sort() as (keyof this)[]) {
```
and `netScheme` is a plain object (every class in the repository defines
`static get netScheme()` returning an object literal), so `netScheme.sort`
is `undefined` and evaluating `(netScheme).sort()` throws
`TypeError: netScheme.sort is not a function` before any field is
visited.  The throw happens in the sizing pass (`dry: true`) as well as
in the writing pass, so no buffer is ever produced for an instance with
a netScheme.  When no netScheme is defined the loop is skipped and the
buffer holds the single classId byte (`dataView.setUint8` truncates to
8 bits). -/
def serialize (classId : ℕ) (netScheme : Option NetScheme) : SerializeOutcome :=
  match netScheme with
  | some _ => .typeError "netScheme.sort is not a function"
  | none => .ok [classId % 256]

/-! ## ExtrapolateStrategy re-enactment (src/unnamed/part_005)

The input buffer `recentInputs`, its maintenance (`clientInputSave`,
`cleanRecentInputs`), and the re-enactment phase of `applySync`
(lines 172-198 of the strategy).  The object-scan phase of `applySync`
(shadow adoption / `syncTo` / creation) touches neither
`world.stepCount` nor `recentInputs`, and the base
`GameEngine.processInput` invoked during replay only traces, so the
re-enactment phase is embedded on the state it actually reads and
writes: the buffer and the step counter.  Steps are embedded as `ℤ`
(JavaScript numbers; `stepCount - maxReEnactSteps` may go negative). -/

/-- An input descriptor as buffered by `clientInputSave`.  `movement`
embeds the truthiness of `inputDesc?.options?.movement`; the declared
type is `movement?: boolean`, so truthy coincides with `=== true`. -/
structure InputDesc where
  messageIndex : ℕ
  step : ℤ
  movement : Bool
deriving DecidableEq, Repr

/-- `recentInputs`: a JS object keyed by step, holding the list of
inputs buffered for that step in arrival order. -/
abbrev RecentInputs := List (ℤ × List InputDesc)

/-- `this.recentInputs[k]` (absent key gives `undefined`). -/
def recentLookup (buf : RecentInputs) (k : ℤ) : Option (List InputDesc) :=
  (buf.find? (fun e => e.1 = k)).map Prod.snd

/-- `ExtrapolateStrategy.clientInputSave` (lines 96-103): create the
step's bucket if missing, then push. -/
def clientInputSave (buf : RecentInputs) (i : InputDesc) : RecentInputs :=
  if (buf.find? (fun e => e.1 = i.step)).isSome then
    buf.map (fun e => if e.1 = i.step then (e.1, e.2 ++ [i]) else e)
  else
    buf ++ [(i.step, [i])]

/-- `ExtrapolateStrategy.cleanRecentInputs(lastServerStep)` (lines
106-112): delete every bucket whose first input's step is at most
`lastServerStep`.  Buckets are created non-empty and deleted whole, so
the `[0]` access never sees an empty array; the empty case below is
unreachable and keeps the bucket. -/
def cleanRecentInputs (buf : RecentInputs) (lastServerStep : ℤ) : RecentInputs :=
  buf.filter (fun e =>
    match e.2.head? with
    | some i => decide (¬ i.step ≤ lastServerStep)
    | none => true)

/-- The clamp of `applySync` (lines 176-179):
```ts
if (serverStep < world.stepCount - this.options.maxReEnactSteps) {
    serverStep = world.stepCount - this.options.maxReEnactSteps;
}
``` -/
def clampServerStep (stepCount syncStepCount : ℤ) (maxReEnactSteps : ℕ) : ℤ :=
  if syncStepCount < stepCount - maxReEnactSteps then stepCount - maxReEnactSteps
  else syncStepCount

/-- The replay loop body, run once per step from the (clamped) server
step up to (excluding) the client step: buffered inputs of the current
step whose `options.movement` is truthy are passed to `processInput`
(`if (!inputDesc?.options?.movement) return;`), then
`gameEngine.step(true)` increments `world.stepCount`.  `fuel` is the
number of remaining iterations. -/
def reenactLoop (buf : RecentInputs) : ℕ → ℤ → List InputDesc
  | 0, _ => []
  | fuel + 1, cur =>
    ((recentLookup buf cur).getD []).filter (fun i => i.movement) ++
      reenactLoop buf fuel (cur + 1)

/-- Result of the re-enactment phase: the inputs replayed (in order),
the final `world.stepCount`, and the purged input buffer. -/
structure ReenactResult where
  replayed : List InputDesc
  stepCount : ℤ
  recentInputs : RecentInputs
deriving DecidableEq, Repr

/-- The re-enactment phase of `ExtrapolateStrategy.applySync`
(src/unnamed/part_005, lines 172-198): clamp the starting step, run
`for (world.stepCount = serverStep; world.stepCount < clientStep;)`
(each iteration replays the step's movement inputs and calls
`gameEngine.step(true)`, which increments `world.stepCount`), then
`cleanRecentInputs(serverStep)` with the clamped value. -/
def applySyncReenact (buf : RecentInputs) (stepCount syncStepCount : ℤ)
    (maxReEnactSteps : ℕ) : ReenactResult :=
  let serverStep := clampServerStep stepCount syncStepCount maxReEnactSteps
  let clientStep := stepCount
  { replayed := reenactLoop buf (clientStep - serverStep).toNat serverStep
    stepCount := serverStep + ((clientStep - serverStep).toNat : ℤ)
    recentInputs := cleanRecentInputs buf serverStep }

/-! ## Server input queues (src/src/ServerEngine.ts)

`queueInputForPlayer` (lines 392-404) and the input-dispatch loop of
`ServerEngine.step` (lines 115-132).  `playerInputQueues` maps each
playerId to its own queue, and the dispatch loop handles every player's
queue independently (one bucket popped per player per step), so the
per-player behaviour is embedded as a single player's queue: a JS object
keyed by step (`queue[data.step]` is the list of that step's inputs in
arrival order).  A server trace interleaves `move`-packet arrivals with
server steps; `ServerEngine.step` dispatches before calling
`gameEngine.step`, which increments `world.stepCount`.  Steps are
embedded as `ℕ` (they are non-negative counters). -/

/-- A queued input: its identity (`messageIndex` as sent by one socket)
and the step it was produced for (`data.step`). -/
structure SInput where
  messageIndex : ℕ
  step : ℕ
deriving DecidableEq, Repr

/-- A single player's input queue: JS object keyed by step. -/
abbrev PQueue := List (ℕ × List SInput)

/-- `ServerEngine.queueInputForPlayer` (lines 392-404): create the
step's array if missing, then push the input at its end. -/
def queueInputForPlayer (q : PQueue) (i : SInput) : PQueue :=
  if (q.find? (fun e => e.1 = i.step)).isSome then
    q.map (fun e => if e.1 = i.step then (e.1, e.2 ++ [i]) else e)
  else
    q ++ [(i.step, [i])]

/-- All inputs held in a queue. -/
def queueFlat (q : PQueue) : List SInput :=
  (q.map Prod.snd).flatten

/-- The input-dispatch step of `ServerEngine.step` (lines 115-132) for
one player: take the smallest step key (`Math.min` over `Object.keys`;
an empty queue yields `Infinity` and the `queueSteps.length > 0` guard
fails); if it is at most the current `stepCount`, dispatch that bucket's
inputs in order to `gameEngine.processInput` and delete the bucket. -/
def dispatchMinBucket (q : PQueue) (stepCount : ℕ) : List SInput × PQueue :=
  match (q.map Prod.fst).min? with
  | some minStep =>
    if minStep ≤ stepCount then
      (((q.find? (fun e => e.1 = minStep)).map Prod.snd).getD [],
        q.filter (fun e => ¬ e.1 = minStep))
    else ([], q)
  | none => ([], q)

/-- One element of a server trace: a `move` packet arriving from the
socket, or one invocation of `ServerEngine.step`. -/
inductive ServerEvent where
  | receiveInput (i : SInput)
  | serverStep
deriving DecidableEq, Repr

/-- The server state the claim observes: the player's queue, the world
step counter, and the log of inputs dispatched to
`gameEngine.processInput`, in dispatch order. -/
structure ServerState where
  queue : PQueue
  stepCount : ℕ
  processed : List SInput
deriving DecidableEq, Repr

/-- Fresh server: empty queue, `stepCount = 0`, nothing processed. -/
def initialServerState : ServerState := ⟨[], 0, []⟩

/-- The transition for one trace event.  A `serverStep` dispatches at
most one bucket (the minimal one, if due) and then runs
`gameEngine.step`, incrementing `world.stepCount`. -/
def serverTransition (st : ServerState) : ServerEvent → ServerState
  | .receiveInput i => { st with queue := queueInputForPlayer st.queue i }
  | .serverStep =>
    let d := dispatchMinBucket st.queue st.stepCount
    { queue := d.2, stepCount := st.stepCount + 1, processed := st.processed ++ d.1 }

/-- Run a server trace from the fresh state. -/
def runServer (evs : List ServerEvent) : ServerState :=
  evs.foldl serverTransition initialServerState

/-- The inputs received over a trace, in arrival order. -/
def arrivalsOf (evs : List ServerEvent) : List SInput :=
  evs.filterMap (fun ev =>
    match ev with
    | .receiveInput i => some i
    | .serverStep => none)

end Lance

/-! ### Theorems for C10 and C7 -/

namespace Lance

theorem hashStep_lt (hash c : ℕ) : hashStep hash c < 2 ^ 32 := by
  have h1 : (hash * 33) % 2 ^ 32 < 2 ^ 32 := Nat.mod_lt _ (by norm_num)
  have h2 : c % 2 ^ 32 < 2 ^ 32 := Nat.mod_lt _ (by norm_num)
  exact Nat.xor_lt_two_pow h1 h2

/-- C10: `Utils.hashStr(s, 8)` lands in `[0, 254]`: the final reduction is
modulo `2 ^ 8 - 1 = 255`, not `2 ^ 8`, so the value 255 is never produced. -/
theorem hashStr_classId_range (str : List ℕ) : hashStr str 8 ≤ 254 := by
  have h : hashStr str 8 < 255 := by
    unfold hashStr
    simp only [show (8 : ℕ) ≠ 0 by norm_num, if_neg]
    exact Nat.mod_lt _ (by norm_num)
  omega

/-- Membership of a key in the world follows from `hasId`. -/
theorem hasId_mem_keys {w : World} {k : ℕ} (h : w.hasId k = true) :
    k ∈ w.objects.map Prod.fst := by
  unfold World.hasId alistLookup at h
  rcases hf : w.objects.find? (fun e => e.1 = k) with _ | e
  · rw [hf] at h; simp at h
  · have hmem := List.mem_of_find?_eq_some hf
    have hkey := List.find?_some hf
    simp only [decide_eq_true_eq] at hkey
    exact hkey ▸ List.mem_map_of_mem Prod.fst hmem

/-- Pigeonhole: among `objects.length + 1` consecutive candidate ids, at
least one is free, so the fuel passed by `getNewId` is sufficient. -/
theorem exists_free_id (w : World) (start : ℕ) :
    ∃ n < w.objects.length + 1, w.hasId (start + n) = false := by
  by_contra hcon
  push_neg at hcon
  have hall : ∀ n < w.objects.length + 1, w.hasId (start + n) = true := by
    intro n hn
    have := hcon n hn
    simpa using this
  set keys : List ℕ := w.objects.map Prod.fst with hkeys
  have hsub : (Finset.range (w.objects.length + 1)).image (start + ·) ⊆ keys.toFinset := by
    intro x hx
    simp only [Finset.mem_image, Finset.mem_range] at hx
    obtain ⟨n, hn, rfl⟩ := hx
    exact List.mem_toFinset.mpr (hasId_mem_keys (hall n hn))
  have hcard1 : ((Finset.range (w.objects.length + 1)).image (start + ·)).card
      = w.objects.length + 1 := by
    rw [Finset.card_image_of_injective _ (add_right_injective start), Finset.card_range]
  have hcard2 : keys.toFinset.card ≤ keys.length := keys.toFinset_card_le
  have := Finset.card_le_card hsub
  rw [hcard1] at this
  have hlen : keys.length = w.objects.length := by simp [hkeys]
  omega

/-- If some id within the fuel horizon is free, `findFreeId` returns the
least free id at or above its starting point. -/
theorem findFreeId_spec (w : World) :
    ∀ (fuel start : ℕ), (∃ n < fuel, w.hasId (start + n) = false) →
      start ≤ findFreeId w fuel start ∧
      w.hasId (findFreeId w fuel start) = false ∧
      (∀ j, start ≤ j → j < findFreeId w fuel start → w.hasId j = true) := by
  intro fuel
  induction fuel with
  | zero => intro start h; obtain ⟨n, hn, _⟩ := h; omega
  | succ m ih =>
    intro start h
    by_cases hocc : w.hasId start = true
    · have hrec : ∃ n < m, w.hasId (start + 1 + n) = false := by
        obtain ⟨n, hn, hfree⟩ := h
        match n, hn, hfree with
        | 0, _, hfree => rw [Nat.add_zero] at hfree; rw [hocc] at hfree; cases hfree
        | k + 1, hn, hfree =>
          exact ⟨k, by omega, by rw [show start + 1 + k = start + (k + 1) by omega]; exact hfree⟩
      have hmain := ih (start + 1) hrec
      have hunf : findFreeId w (m + 1) start = findFreeId w m (start + 1) := by
        show (if w.hasId start = true then findFreeId w m (start + 1) else start) =
          findFreeId w m (start + 1)
        rw [hocc]; simp
      rw [hunf]
      refine ⟨Nat.le_of_succ_le hmain.1, hmain.2.1, ?_⟩
      intro j hj1 hj2
      by_cases hj : j = start
      · exact hj ▸ hocc
      · exact hmain.2.2 j (by omega) hj2
    · have hfalse : w.hasId start = false := by
        cases hv : w.hasId start
        · rfl
        · exact absurd hv hocc
      have hunf : findFreeId w (m + 1) start = start := by
        show (if w.hasId start = true then findFreeId w m (start + 1) else start) = start
        rw [hfalse]; simp
      rw [hunf]
      exact ⟨le_refl _, hfalse, fun j h1 h2 => by omega⟩

/-- C7: `GameWorld.getNewId` returns the smallest id at or above `idCount`
that is not a key of `world.objects`, and afterwards `idCount` equals the
returned id plus one (the object map itself is untouched). -/
theorem getNewId_spec (w : World) :
    w.idCount ≤ (World.getNewId w).1 ∧
    w.hasId (World.getNewId w).1 = false ∧
    (∀ j, w.idCount ≤ j → j < (World.getNewId w).1 → w.hasId j = true) ∧
    (World.getNewId w).2.idCount = (World.getNewId w).1 + 1 ∧
    (World.getNewId w).2.objects = w.objects := by
  have hexists := exists_free_id w w.idCount
  have hmain := findFreeId_spec w (w.objects.length + 1) w.idCount hexists
  exact ⟨hmain.1, hmain.2.1, hmain.2.2, rfl, rfl⟩

/-- A concrete sample world holding objects with ids 3 and 4, with
`idCount = 3`; used to evaluate the world-level theorems. -/
def sampleWorld : World :=
  { stepCount := 0, playerCount := 0, idCount := 3,
    objects := [(3, ⟨3, 0, 0⟩), (4, ⟨4, 0, 0⟩)] }

/-- Witness for C7: evaluation at `sampleWorld`; the fresh id is 5. -/
theorem getNewId_spec_witness :
    sampleWorld.idCount ≤ (World.getNewId sampleWorld).1 ∧
    sampleWorld.hasId (World.getNewId sampleWorld).1 = false ∧
    (World.getNewId sampleWorld).1 = 5 := by
  have h := getNewId_spec sampleWorld
  exact ⟨h.1, h.2.1, by decide⟩

/-! ### Theorems for C8 and C9 -/

/-- C8: `removeObjectFromWorld` throws exactly when no object with the
given id exists; on a throw the object map is unchanged and no hook or
event fires; when the object exists, `onRemoveFromWorld` is called, then
`objectDestroyed` is emitted, and the map entry is deleted. -/
theorem removeObjectFromWorld_spec (w : World) (objectId : ℕ) :
    ((removeObjectFromWorld w objectId).threw = true ↔
      alistLookup w.objects objectId = none) ∧
    ((removeObjectFromWorld w objectId).threw = true →
      (removeObjectFromWorld w objectId).world = w ∧
      (removeObjectFromWorld w objectId).events = []) ∧
    ((removeObjectFromWorld w objectId).threw = false →
      (removeObjectFromWorld w objectId).world = w.removeObject objectId ∧
      (removeObjectFromWorld w objectId).events =
        [.onRemoveFromWorld objectId, .objectDestroyed objectId]) := by
  rcases hf : alistLookup w.objects objectId with _ | o
  · refine ⟨⟨fun _ => rfl, fun _ => ?_⟩, fun _ => ?_, fun hcon => ?_⟩
    · simp [removeObjectFromWorld, hf]
    · simp [removeObjectFromWorld, hf]
    · simp [removeObjectFromWorld, hf] at hcon
  · refine ⟨⟨fun hthrew => ?_, fun heq => ?_⟩, fun hthrew => ?_, fun _ => ?_⟩
    · simp [removeObjectFromWorld, hf] at hthrew
    · simp [hf] at heq
    · simp [removeObjectFromWorld, hf] at hthrew
    · simp [removeObjectFromWorld, hf]

/-- Witness for C8: in `sampleWorld`, removing the absent id 9 throws and
leaves the world intact; removing the present id 3 deletes the entry
after firing the hook and the event. -/
theorem removeObjectFromWorld_spec_witness :
    (removeObjectFromWorld sampleWorld 9).threw = true ∧
    (removeObjectFromWorld sampleWorld 9).world = sampleWorld ∧
    (removeObjectFromWorld sampleWorld 3).threw = false ∧
    (removeObjectFromWorld sampleWorld 3).world = sampleWorld.removeObject 3 ∧
    (removeObjectFromWorld sampleWorld 3).events =
      [.onRemoveFromWorld 3, .objectDestroyed 3] := by
  have h9 := removeObjectFromWorld_spec sampleWorld 9
  have h3 := removeObjectFromWorld_spec sampleWorld 3
  have ht9 : (removeObjectFromWorld sampleWorld 9).threw = true :=
    h9.1.mpr (by decide)
  have ht3 : (removeObjectFromWorld sampleWorld 3).threw = false := by decide
  exact ⟨ht9, (h9.2.1 ht9).1, ht3, (h3.2.2 ht3).1, (h3.2.2 ht3).2⟩

/-- C9: adding an object whose id lies in the client id space while some
registered object (of any id) carries the same `inputId` is a complete
no-op: the object map is unchanged, no `onAddToWorld` call and no
`objectAdded` event happens, and `undefined` is returned. -/
theorem addObjectToWorld_shadow_suppressed (w : World) (clientIDSpace : ℕ)
    (object : GObj) (hid : clientIDSpace ≤ object.id)
    (hmatch : ∃ e ∈ w.objects, e.2.inputId = object.inputId) :
    addObjectToWorld w clientIDSpace object = (w, [], none) := by
  have hany : w.objects.any (fun e => e.2.inputId = object.inputId) = true := by
    rw [List.any_eq_true]
    obtain ⟨e, he, heq⟩ := hmatch
    exact ⟨e, he, by simp [heq]⟩
  simp [addObjectToWorld, hid, hany]

/-- Witness for C9: a shadow object with id 1000001 and `inputId = 0`
matches the default `inputId` of the objects in `sampleWorld`, so the add
is suppressed. -/
theorem addObjectToWorld_shadow_suppressed_witness :
    addObjectToWorld sampleWorld 1000000 ⟨1000001, 0, 0⟩ = (sampleWorld, [], none) :=
  addObjectToWorld_shadow_suppressed sampleWorld 1000000 ⟨1000001, 0, 0⟩
    (by decide) ⟨(3, ⟨3, 0, 0⟩), by decide, rfl⟩

/-! ### Theorems for C2 and C3 -/

/-- A `PhysicalObject2D` as built by its constructor and then moved to
the given position/velocity/angle/angularVelocity: no bending state is
pending (`bendingIncrements = 0`, deltas unset). -/
def mkPhysicalObject (pos vel : TwoVector) (angle angularVelocity : ℚ) :
    PhysicalObject2D :=
  { position := pos, velocity := vel, angle := angle
    angularVelocity := angularVelocity, bendingTarget := none
    bendingIncrements := 0, bendingPositionDelta := ⟨0, 0⟩
    bendingVelocityDelta := ⟨0, 0⟩, bendingAVDelta := 0, bendingAngleDelta := 0 }

/-- Running `applyIncrementalBending` (without a step descriptor, so with
`timeFactor = 1`) exactly `bendingIncrements` times adds each delta that
many times and exhausts `bendingIncrements`. -/
theorem applyBendingN_spec (n : ℕ) :
    ∀ s : PhysicalObject2D, s.bendingIncrements = n →
      (applyBendingN n none s).position =
        s.position.add (s.bendingPositionDelta.multiplyScalar (n : ℚ)) ∧
      (applyBendingN n none s).velocity =
        s.velocity.add (s.bendingVelocityDelta.multiplyScalar (n : ℚ)) ∧
      (applyBendingN n none s).angularVelocity =
        s.angularVelocity + s.bendingAVDelta * (n : ℚ) ∧
      (applyBendingN n none s).angle = s.angle + s.bendingAngleDelta * (n : ℚ) ∧
      (applyBendingN n none s).bendingIncrements = 0 ∧
      (applyBendingN n none s).bendingTarget = s.bendingTarget := by
  induction n with
  | zero =>
    rintro ⟨⟨px, py⟩, ⟨vx, vy⟩, a, av, bt, bi, ⟨dx, dy⟩, ⟨ex, ey⟩, avd, ad⟩ hbi
    simp only at hbi
    subst hbi
    refine ⟨?_, ?_, by norm_num [applyBendingN], by norm_num [applyBendingN],
      rfl, rfl⟩ <;>
      simp [applyBendingN, TwoVector.add, TwoVector.multiplyScalar]
  | succ m ih =>
    rintro ⟨⟨px, py⟩, ⟨vx, vy⟩, a, av, bt, bi, ⟨dx, dy⟩, ⟨ex, ey⟩, avd, ad⟩ hbi
    simp only at hbi
    subst hbi
    have hstep : applyBendingN (m + 1) none
        ⟨⟨px, py⟩, ⟨vx, vy⟩, a, av, bt, m + 1, ⟨dx, dy⟩, ⟨ex, ey⟩, avd, ad⟩ =
        applyBendingN m none
        ⟨⟨px + dx * 1, py + dy * 1⟩, ⟨vx + ex * 1, vy + ey * 1⟩,
          a + ad * 1, av + avd * 1, bt, m, ⟨dx, dy⟩, ⟨ex, ey⟩, avd, ad⟩ := rfl
    rw [hstep]
    have hmain := ih
      ⟨⟨px + dx * 1, py + dy * 1⟩, ⟨vx + ex * 1, vy + ey * 1⟩,
        a + ad * 1, av + avd * 1, bt, m, ⟨dx, dy⟩, ⟨ex, ey⟩, avd, ad⟩ rfl
    obtain ⟨h1, h2, h3, h4, h5, h6⟩ := hmain
    refine ⟨?_, ?_, ?_, ?_, h5, h6⟩
    · rw [h1]
      simp only [TwoVector.add, TwoVector.multiplyScalar, TwoVector.mk.injEq]
      push_cast
      constructor <;> ring
    · rw [h2]
      simp only [TwoVector.add, TwoVector.multiplyScalar, TwoVector.mk.injEq]
      push_cast
      constructor <;> ring
    · rw [h3]; push_cast; ring
    · rw [h4]; push_cast; ring

/-- C2 (amended): after `increments` applications of
`applyIncrementalBending` with `timeFactor = 1`, the object's position
and velocity sit exactly (in exact arithmetic) a `percent` fraction of
the way from the `fromSource` state toward the current (bendingTarget)
state, the angular velocity a `percent²` fraction of the way, and the
angle has advanced by `percent` of the wrapped shortest-path delta; the
numeric state coincides with `bendingTarget` only when those fractions
are 1 — not for general `percent` as the claim states. -/
theorem bendToCurrent_percent_convergence (self fromSource : PhysicalObject2D)
    (percent : ℚ) (increments : ℕ) (h : 0 < increments) :
    (applyBendingN increments none
        (bendToCurrent self fromSource percent increments)).position =
      fromSource.position.add
        ((self.position.subtract fromSource.position).multiplyScalar percent) ∧
    (applyBendingN increments none
        (bendToCurrent self fromSource percent increments)).velocity =
      fromSource.velocity.add
        ((self.velocity.subtract fromSource.velocity).multiplyScalar percent) ∧
    (applyBendingN increments none
        (bendToCurrent self fromSource percent increments)).angularVelocity =
      fromSource.angularVelocity +
        (self.angularVelocity - fromSource.angularVelocity) * percent * percent ∧
    (applyBendingN increments none
        (bendToCurrent self fromSource percent increments)).angle =
      fromSource.angle +
        interpolateDeltaWithWrapping fromSource.angle self.angle percent 0 (2 * mathPI) ∧
    (applyBendingN increments none
        (bendToCurrent self fromSource percent increments)).bendingIncrements = 0 ∧
    (bendToCurrent self fromSource percent increments).bendingTarget =
      some ⟨self.position, self.velocity, self.angle, self.angularVelocity⟩ := by
  have hn : ((increments : ℚ)) ≠ 0 := by
    exact_mod_cast Nat.pos_iff_ne_zero.mp h
  have hrun := applyBendingN_spec increments
    (bendToCurrent self fromSource percent increments) rfl
  obtain ⟨h1, h2, h3, h4, h5, h6⟩ := hrun
  refine ⟨?_, ?_, ?_, ?_, h5, ?_⟩
  · rw [h1]
    simp only [bendToCurrent, TwoVector.getBendingDelta, TwoVector.clone,
      TwoVector.add, TwoVector.subtract, TwoVector.multiplyScalar,
      TwoVector.mk.injEq]
    constructor <;> field_simp
  · rw [h2]
    simp only [bendToCurrent, TwoVector.getBendingDelta, TwoVector.clone,
      TwoVector.add, TwoVector.subtract, TwoVector.multiplyScalar,
      TwoVector.mk.injEq]
    constructor <;> field_simp
  · rw [h3]
    simp only [bendToCurrent]
    field_simp
  · rw [h4]
    simp only [bendToCurrent]
    field_simp
  · simp only [bendToCurrent, TwoVector.clone]

/-- Witness for the amended C2: a concrete run with `percent = 1/2` and
`increments = 2`. -/
theorem bendToCurrent_percent_convergence_witness :
    (0 : ℕ) < 2 ∧
    (applyBendingN 2 none
        (bendToCurrent (mkPhysicalObject ⟨1, 0⟩ ⟨0, 0⟩ 0 0)
          (mkPhysicalObject ⟨0, 0⟩ ⟨0, 0⟩ 0 0) (1 / 2) 2)).position =
      (mkPhysicalObject ⟨0, 0⟩ ⟨0, 0⟩ 0 0).position.add
        (((mkPhysicalObject ⟨1, 0⟩ ⟨0, 0⟩ 0 0).position.subtract
            (mkPhysicalObject ⟨0, 0⟩ ⟨0, 0⟩ 0 0).position).multiplyScalar (1 / 2)) :=
  ⟨by decide,
    (bendToCurrent_percent_convergence (mkPhysicalObject ⟨1, 0⟩ ⟨0, 0⟩ 0 0)
      (mkPhysicalObject ⟨0, 0⟩ ⟨0, 0⟩ 0 0) (1 / 2) 2 (by decide)).1⟩

/-- Counterexample refuting C2 as stated: with `percent = 1/2`,
`increments = 1`, current position `(1,0)` and `fromSource` `(0,0)`, the
exact-arithmetic run ends at `x = 1/2` while `bendingTarget.position.x`
is `1`: a systematic gap of `1/2`, not a floating-point rounding
effect. -/
theorem bendToCurrent_not_target_counterexample :
    (applyBendingN 1 none
        (bendToCurrent (mkPhysicalObject ⟨1, 0⟩ ⟨0, 0⟩ 0 0)
          (mkPhysicalObject ⟨0, 0⟩ ⟨0, 0⟩ 0 0) (1 / 2) 1)).position.x = 1 / 2 ∧
    ((bendToCurrent (mkPhysicalObject ⟨1, 0⟩ ⟨0, 0⟩ 0 0)
          (mkPhysicalObject ⟨0, 0⟩ ⟨0, 0⟩ 0 0) (1 / 2) 1).bendingTarget.map
        fun t => t.position.x) = some 1 ∧
    (applyBendingN 1 none
        (bendToCurrent (mkPhysicalObject ⟨1, 0⟩ ⟨0, 0⟩ 0 0)
          (mkPhysicalObject ⟨0, 0⟩ ⟨0, 0⟩ 0 0) (1 / 2) 1)).position.x ≠ 1 := by
  norm_num [applyBendingN, applyIncrementalBending, bendToCurrent,
    mkPhysicalObject, TwoVector.getBendingDelta, TwoVector.clone,
    TwoVector.add, TwoVector.subtract, TwoVector.multiplyScalar,
    interpolateDeltaWithWrapping, Option.map]

/-- C3: the spec's scenario S5.  Current position `(10,0)`, saved-state
position `(0,0)`, `percent = 0.5`, `increments = 10`: after
`bendToCurrent` the position is reset to `(0,0)` and
`bendingPositionDelta = (0.5, 0)`; after 10 calls of
`applyIncrementalBending` with `dt = 1000/60` the position is `(5,0)`
and `bendingIncrements` is 0. -/
theorem bending_scenario_S5 :
    (bendToCurrent (mkPhysicalObject ⟨10, 0⟩ ⟨0, 0⟩ 0 0)
        (mkPhysicalObject ⟨0, 0⟩ ⟨0, 0⟩ 0 0) (1 / 2) 10).position = ⟨0, 0⟩ ∧
    (bendToCurrent (mkPhysicalObject ⟨10, 0⟩ ⟨0, 0⟩ 0 0)
        (mkPhysicalObject ⟨0, 0⟩ ⟨0, 0⟩ 0 0) (1 / 2) 10).bendingPositionDelta =
      ⟨1 / 2, 0⟩ ∧
    (applyBendingN 10 (some (1000 / 60))
        (bendToCurrent (mkPhysicalObject ⟨10, 0⟩ ⟨0, 0⟩ 0 0)
          (mkPhysicalObject ⟨0, 0⟩ ⟨0, 0⟩ 0 0) (1 / 2) 10)).position = ⟨5, 0⟩ ∧
    (applyBendingN 10 (some (1000 / 60))
        (bendToCurrent (mkPhysicalObject ⟨10, 0⟩ ⟨0, 0⟩ 0 0)
          (mkPhysicalObject ⟨0, 0⟩ ⟨0, 0⟩ 0 0) (1 / 2) 10)).bendingIncrements = 0 := by
  norm_num [applyBendingN, applyIncrementalBending, bendToCurrent,
    mkPhysicalObject, TwoVector.getBendingDelta, TwoVector.clone,
    TwoVector.add, TwoVector.subtract, TwoVector.multiplyScalar,
    interpolateDeltaWithWrapping, TwoVector.mk.injEq]

/-! ### Theorems for C1 and C6 -/

/-- C1 (evaluation at the failing input): for a netScheme with string
fields `label` (unchanged: "keep" before and after) and `name` (changed:
"old" to "new") and a numeric `id`, the pruning applied inside
`serializeUpdate` keeps the UNCHANGED string field at its current value
and replaces the CHANGED string field by the pruned marker `null` — the
exact inverse of the claimed (and intended: the source's own comment
reads "prune strings which haven't changed") behaviour, under which the
recipient, whose `syncTo` skips non-string values, would keep its stale
"old" forever. -/
theorem prunedStringsClone_prunes_changed_strings :
    prunedStringsClone
      [("label", .STRING), ("name", .STRING), ("id", .INT32)]
      (fun p => if p = "label" then .str "keep" else
        if p = "name" then .str "new" else .num 7)
      (fun p => if p = "label" then .str "keep" else
        if p = "name" then .str "old" else .num 7) =
      [("label", .str "keep"), ("name", .jsNull), ("id", .num 7)] := by
  rfl

/-- C6 (evaluation at the failing input): serializing any instance whose
class declares a netScheme — here a `TwoVector`, whose classId is
`Utils.hashStr("TwoVector")` and whose netScheme declares `x` then `y` —
throws `TypeError` at the `(netScheme).sort()` call, so no buffer (in
particular none starting with the classId byte and continuing with the
declared fields) is produced. -/
theorem serialize_throws_for_netScheme :
    serialize (hashStr [84, 119, 111, 86, 101, 99, 116, 111, 114] 8)
        (some [("x", .FLOAT32), ("y", .FLOAT32)]) =
      .typeError "netScheme.sort is not a function" ∧
    ∀ bytes, serialize (hashStr [84, 119, 111, 86, 101, 99, 116, 111, 114] 8)
        (some [("x", .FLOAT32), ("y", .FLOAT32)]) ≠ .ok bytes := by
  exact ⟨rfl, fun bytes h => by cases h⟩

/-! ### Theorems for C5 -/

/-- Every input produced by the replay loop is a movement input drawn
from the buffer. -/
theorem reenactLoop_mem (buf : RecentInputs) :
    ∀ (fuel : ℕ) (cur : ℤ) (i : InputDesc), i ∈ reenactLoop buf fuel cur →
      i.movement = true ∧ ∃ e ∈ buf, i ∈ e.2 := by
  intro fuel
  induction fuel with
  | zero => intro cur i hi; cases hi
  | succ n ih =>
    intro cur i hi
    rw [reenactLoop, List.mem_append] at hi
    rcases hi with hi | hi
    · have hmov := List.of_mem_filter hi
      have hmem := List.mem_of_mem_filter hi
      refine ⟨hmov, ?_⟩
      rcases hlk : recentLookup buf cur with _ | l
      · rw [hlk] at hmem; cases hmem
      · rw [hlk] at hmem
        simp only [Option.getD_some] at hmem
        unfold recentLookup at hlk
        rcases hfind : buf.find? (fun e => e.1 = cur) with _ | e0
        · rw [hfind] at hlk; cases hlk
        · rw [hfind] at hlk
          obtain rfl : e0.2 = l := by simpa using hlk
          exact ⟨e0, List.mem_of_find?_eq_some hfind, hmem⟩
    · exact ih (cur + 1) i hi

/-- `cleanRecentInputs` deletes every bucket keyed at or below the given
step, provided the buffer is well-formed (buckets non-empty, every input
filed under its own step — the invariant `clientInputSave` maintains). -/
theorem cleanRecentInputs_purges (buf : RecentInputs) (s : ℤ)
    (hwf : ∀ e ∈ buf, e.2 ≠ [] ∧ ∀ i ∈ e.2, i.step = e.1) :
    ∀ k ≤ s, recentLookup (cleanRecentInputs buf s) k = none := by
  intro k hk
  rcases hlk : recentLookup (cleanRecentInputs buf s) k with _ | l
  · rfl
  · exfalso
    unfold recentLookup at hlk
    rcases hfind : (cleanRecentInputs buf s).find? (fun e => e.1 = k) with _ | e0
    · rw [hfind] at hlk; cases hlk
    · have hmem := List.mem_of_find?_eq_some hfind
      have hkey : e0.1 = k := by
        have := List.find?_some hfind
        simpa using this
      rw [cleanRecentInputs, List.mem_filter] at hmem
      obtain ⟨hbuf, hpred⟩ := hmem
      obtain ⟨hne, hsteps⟩ := hwf e0 hbuf
      rcases hl2 : e0.2 with _ | ⟨i0, t⟩
      · exact hne hl2
      · rw [hl2] at hpred
        simp only [List.head?_cons] at hpred
        have hstep : i0.step = e0.1 := hsteps i0 (by rw [hl2]; exact List.mem_cons_self i0 t)
        rw [decide_eq_true_eq] at hpred
        exact hpred (by omega)

/-- `clientInputSave` maintains the buffer invariant assumed by the C5
theorem: buckets are non-empty and every input is filed under its own
step. -/
theorem clientInputSave_wf (buf : RecentInputs) (i : InputDesc)
    (hwf : ∀ e ∈ buf, e.2 ≠ [] ∧ ∀ j ∈ e.2, j.step = e.1) :
    ∀ e ∈ clientInputSave buf i, e.2 ≠ [] ∧ ∀ j ∈ e.2, j.step = e.1 := by
  intro e he
  unfold clientInputSave at he
  by_cases hf : (buf.find? (fun x => x.1 = i.step)).isSome
  · rw [if_pos hf] at he
    obtain ⟨e0, he0, rfl⟩ := List.mem_map.mp he
    by_cases h0 : e0.1 = i.step
    · rw [if_pos h0]
      refine ⟨by simp, ?_⟩
      intro j hj
      rcases List.mem_append.mp hj with hj | hj
      · exact (hwf e0 he0).2 j hj
      · rw [List.mem_singleton.mp hj, h0]
    · rw [if_neg h0]
      exact hwf e0 he0
  · rw [if_neg hf] at he
    rcases List.mem_append.mp he with h | h
    · exact hwf e h
    · rw [List.mem_singleton.mp h]
      exact ⟨by simp, fun j hj => by rw [List.mem_singleton.mp hj]⟩

/-- C5: for a sync with `sync.stepCount ≤ L` (the client's current step),
the re-enactment phase of `ExtrapolateStrategy.applySync` replays at most
`maxReEnactSteps` steps (the starting step being clamped to
`L - maxReEnactSteps`), replays only buffered inputs whose
`options.movement` is true, restores `world.stepCount` to `L` when the
loop finishes, and purges every buffer entry with step at most the
clamped server step. -/
theorem applySync_reenact_spec (buf : RecentInputs)
    (stepCount syncStepCount : ℤ) (maxReEnactSteps : ℕ)
    (hle : syncStepCount ≤ stepCount)
    (hwf : ∀ e ∈ buf, e.2 ≠ [] ∧ ∀ i ∈ e.2, i.step = e.1) :
    (stepCount - clampServerStep stepCount syncStepCount maxReEnactSteps).toNat
        ≤ maxReEnactSteps ∧
    (applySyncReenact buf stepCount syncStepCount maxReEnactSteps).stepCount
        = stepCount ∧
    (∀ i ∈ (applySyncReenact buf stepCount syncStepCount maxReEnactSteps).replayed,
      i.movement = true ∧ ∃ e ∈ buf, i ∈ e.2) ∧
    (∀ k ≤ clampServerStep stepCount syncStepCount maxReEnactSteps,
      recentLookup
        (applySyncReenact buf stepCount syncStepCount maxReEnactSteps).recentInputs
        k = none) := by
  have hclamp_le : clampServerStep stepCount syncStepCount maxReEnactSteps ≤ stepCount := by
    unfold clampServerStep; split <;> omega
  refine ⟨?_, ?_, ?_, ?_⟩
  · unfold clampServerStep; split <;> omega
  · simp only [applySyncReenact]
    omega
  · intro i hi
    simp only [applySyncReenact] at hi
    exact reenactLoop_mem buf _ _ i hi
  · intro k hk
    simp only [applySyncReenact]
    exact cleanRecentInputs_purges buf _ hwf k hk

/-- Witness for C5: client at step 8, sync at step 5,
`maxReEnactSteps = 60`, buffer holding two inputs at step 5 (one
movement, one not) and one movement input at step 7.  The counter
returns to 8 and the step-5 bucket is purged. -/
theorem applySync_reenact_spec_witness :
    (applySyncReenact [((5 : ℤ), [⟨0, 5, true⟩, ⟨1, 5, false⟩]), ((7 : ℤ), [⟨2, 7, true⟩])]
        8 5 60).stepCount = 8 ∧
    recentLookup
      (applySyncReenact [((5 : ℤ), [⟨0, 5, true⟩, ⟨1, 5, false⟩]), ((7 : ℤ), [⟨2, 7, true⟩])]
        8 5 60).recentInputs 5 = none := by
  have h := applySync_reenact_spec
    [((5 : ℤ), [⟨0, 5, true⟩, ⟨1, 5, false⟩]), ((7 : ℤ), [⟨2, 7, true⟩])]
    8 5 60 (by decide) (by decide)
  exact ⟨h.2.1, h.2.2.2 5 (by decide)⟩

/-! ### Theorems for C4 -/

/-- `min?` of a `ℕ` list yields a member that bounds the list below. -/
theorem natList_min_spec {l : List ℕ} {m : ℕ} (h : l.min? = some m) :
    m ∈ l ∧ ∀ b ∈ l, m ≤ b :=
  (List.min?_eq_some_iff (fun a => le_refl a) (fun a b => min_choice a b)
    (fun _ _ _ => le_min_iff)).mp h

/-- Entries with other keys are untouched by a keyed bucket update. -/
theorem pqueue_map_untouched (k : ℕ) (g : ℕ × List SInput → ℕ × List SInput) :
    ∀ t : PQueue, ¬ k ∈ t.map Prod.fst →
      t.map (fun e => if e.1 = k then g e else e) = t := by
  intro t
  induction t with
  | nil => intro _; rfl
  | cons e t ih =>
    intro h
    simp only [List.map_cons, List.mem_cons, not_or] at h
    obtain ⟨h1, h2⟩ := h
    simp only [List.map_cons]
    rw [if_neg (fun hc => h1 hc.symm), ih h2]

/-- `queueInputForPlayer` on a queue whose head holds a different key. -/
theorem queueInputForPlayer_cons_ne (e : ℕ × List SInput) (t : PQueue)
    (i : SInput) (h : ¬ e.1 = i.step) :
    queueInputForPlayer (e :: t) i = e :: queueInputForPlayer t i := by
  unfold queueInputForPlayer
  rw [List.find?_cons_of_neg _ (by simpa using h)]
  by_cases hf : (t.find? (fun x => x.1 = i.step)).isSome
  · rw [if_pos hf, if_pos hf]
    simp only [List.map_cons, if_neg h]
  · rw [if_neg hf, if_neg hf]
    rfl

/-- `queueInputForPlayer` on a queue whose head holds the input's key and
whose tail does not repeat it. -/
theorem queueInputForPlayer_cons_eq (e : ℕ × List SInput) (t : PQueue)
    (i : SInput) (h : e.1 = i.step) (hnot : ¬ e.1 ∈ t.map Prod.fst) :
    queueInputForPlayer (e :: t) i = (e.1, e.2 ++ [i]) :: t := by
  unfold queueInputForPlayer
  rw [List.find?_cons_of_pos _ (by simpa using h)]
  simp only [Option.isSome_some, if_true, List.map_cons, if_pos h]
  rw [pqueue_map_untouched i.step _ t (by rwa [h] at hnot)]

/-- The key list after an enqueue: unchanged when the step's bucket
already exists, extended by the new key otherwise. -/
theorem queueInput_keys (q : PQueue) (i : SInput) :
    (queueInputForPlayer q i).map Prod.fst =
      if (q.find? (fun e => e.1 = i.step)).isSome then q.map Prod.fst
      else q.map Prod.fst ++ [i.step] := by
  unfold queueInputForPlayer
  by_cases hf : (q.find? (fun e => e.1 = i.step)).isSome
  · rw [if_pos hf, if_pos hf, List.map_map]
    apply List.map_congr_left
    intro e _
    by_cases he : e.1 = i.step <;> simp [he]
  · rw [if_neg hf, if_neg hf, List.map_append]
    rfl

/-- Enqueueing preserves well-formedness of the buckets: buckets stay
non-empty and every input stays filed under its own step. -/
theorem queueInput_wf (q : PQueue) (i : SInput)
    (hwf : ∀ e ∈ q, e.2 ≠ [] ∧ ∀ j ∈ e.2, j.step = e.1) :
    ∀ e ∈ queueInputForPlayer q i, e.2 ≠ [] ∧ ∀ j ∈ e.2, j.step = e.1 := by
  intro e he
  unfold queueInputForPlayer at he
  by_cases hf : (q.find? (fun x => x.1 = i.step)).isSome
  · rw [if_pos hf] at he
    obtain ⟨e0, he0, rfl⟩ := List.mem_map.mp he
    by_cases h0 : e0.1 = i.step
    · rw [if_pos h0]
      refine ⟨by simp, ?_⟩
      intro j hj
      rcases List.mem_append.mp hj with hj | hj
      · exact (hwf e0 he0).2 j hj
      · rw [List.mem_singleton.mp hj, h0]
    · rw [if_neg h0]
      exact hwf e0 he0
  · rw [if_neg hf] at he
    rcases List.mem_append.mp he with h | h
    · exact hwf e h
    · rw [List.mem_singleton.mp h]
      exact ⟨by simp, fun j hj => by rw [List.mem_singleton.mp hj]⟩

/-- `dispatchMinBucket` on an empty queue dispatches nothing. -/
theorem dispatchMinBucket_eq_none (q : PQueue) (c : ℕ)
    (h : (q.map Prod.fst).min? = none) : dispatchMinBucket q c = ([], q) := by
  simp only [dispatchMinBucket, h]

/-- `dispatchMinBucket` when the minimal step is still in the future. -/
theorem dispatchMinBucket_eq_late (q : PQueue) (c m : ℕ)
    (h : (q.map Prod.fst).min? = some m) (hm : ¬ m ≤ c) :
    dispatchMinBucket q c = ([], q) := by
  simp only [dispatchMinBucket, h, if_neg hm]

/-- `dispatchMinBucket` when the minimal step is due: pop that bucket. -/
theorem dispatchMinBucket_eq_pop (q : PQueue) (c m : ℕ)
    (h : (q.map Prod.fst).min? = some m) (hm : m ≤ c) :
    dispatchMinBucket q c =
      (((q.find? (fun e => e.1 = m)).map Prod.snd).getD [],
        q.filter (fun e => ¬ e.1 = m)) := by
  simp only [dispatchMinBucket, h, if_pos hm]

/-- Enqueueing adds exactly one occurrence of the input to the queue's
contents (for unique keys). -/
theorem queueFlat_enqueue_count (i x : SInput) :
    ∀ q : PQueue, (q.map Prod.fst).Nodup →
      (queueFlat (queueInputForPlayer q i)).count x =
        (queueFlat q).count x + (if x = i then 1 else 0) := by
  intro q
  induction q with
  | nil =>
    intro _
    by_cases hx : x = i <;>
      simp [queueInputForPlayer, queueFlat, List.count_cons, hx]
  | cons e t ih =>
    intro hnd
    simp only [List.map_cons, List.nodup_cons] at hnd
    obtain ⟨hhead, htail⟩ := hnd
    by_cases he : e.1 = i.step
    · rw [queueInputForPlayer_cons_eq e t i he hhead]
      by_cases hx : x = i <;>
        simp [queueFlat, List.count_append, List.count_cons, hx] <;>
        omega
    · rw [queueInputForPlayer_cons_ne e t i he]
      have hrec := ih htail
      simp only [queueFlat, List.map_cons, List.flatten_cons,
        List.count_append] at hrec ⊢
      omega

/-- Popping the bucket of a present key conserves the queue's contents:
the popped bucket plus the remainder account for every occurrence. -/
theorem queueFlat_pop_count (m : ℕ) (x : SInput) :
    ∀ q : PQueue, (q.map Prod.fst).Nodup → m ∈ q.map Prod.fst →
      (((q.find? (fun e => e.1 = m)).map Prod.snd).getD []).count x +
        (queueFlat (q.filter (fun e => ¬ e.1 = m))).count x =
        (queueFlat q).count x := by
  intro q
  induction q with
  | nil => intro _ hm; cases hm
  | cons e t ih =>
    intro hnd hm
    simp only [List.map_cons, List.nodup_cons] at hnd
    obtain ⟨hhead, htail⟩ := hnd
    by_cases he : e.1 = m
    · rw [List.find?_cons_of_pos _ (by simpa using he)]
      have hfilt : t.filter (fun e => ¬ e.1 = m) = t := by
        apply List.filter_eq_self.mpr
        intro a ha
        have : ¬ a.1 = m := by
          intro hc
          exact hhead (by rw [he, ← hc]; exact List.mem_map_of_mem Prod.fst ha)
        simpa using this
      have hdrop : (e :: t).filter (fun e => ¬ e.1 = m) = t := by
        rw [List.filter_cons, if_neg (by simp [he]), hfilt]
      rw [hdrop]
      simp [queueFlat, List.count_append]
    · rw [List.find?_cons_of_neg _ (by simpa using he)]
      have hm' : m ∈ t.map Prod.fst := by
        rw [List.map_cons] at hm
        rcases List.mem_cons.mp hm with hc | hc
        · exact absurd hc.symm he
        · exact hc
      have hrec := ih htail hm'
      have hkeep : (e :: t).filter (fun e => ¬ e.1 = m) =
          e :: t.filter (fun e => ¬ e.1 = m) := by
        simp only [List.filter_cons]
        rw [if_pos (by simpa using he)]
      rw [hkeep]
      simp only [queueFlat, List.map_cons, List.flatten_cons,
        List.count_append] at hrec ⊢
      omega

/-- The unconditional accounting invariant, maintained along every
server trace with no assumption on the arrivals (order or
distinctness): the dispatch log and the queue's contents together hold
each input value exactly as often as it has arrived, and the bucket keys
are unique.  It is what makes the at-most-once guarantee hold even when
a late out-of-order input re-creates the key of an already-popped
bucket: the re-created bucket holds only the new input. -/
def ServerCountInv (A : List SInput) (st : ServerState) : Prop :=
  (∀ x : SInput,
    st.processed.count x + (queueFlat st.queue).count x = A.count x) ∧
  (st.queue.map Prod.fst).Nodup

/-- Receiving any input preserves the accounting invariant. -/
theorem serverCountInv_receive (A : List SInput) (st : ServerState) (i : SInput)
    (hinv : ServerCountInv A st) :
    ServerCountInv (A ++ [i]) (serverTransition st (.receiveInput i)) := by
  obtain ⟨hcount, hkeys⟩ := hinv
  simp only [serverTransition]
  refine ⟨?_, ?_⟩
  · intro x
    dsimp only
    have h1 := queueFlat_enqueue_count i x st.queue hkeys
    have h2 := hcount x
    rw [List.count_append]
    by_cases hx : x = i
    · have h1' : List.count x (queueFlat (queueInputForPlayer st.queue i)) =
          List.count x (queueFlat st.queue) + 1 := by
        rw [h1, if_pos hx]
      have h4 : List.count x [i] = 1 := by simp [hx]
      omega
    · have h1' : List.count x (queueFlat (queueInputForPlayer st.queue i)) =
          List.count x (queueFlat st.queue) := by
        rw [h1, if_neg hx]
        exact Nat.add_zero _
      have h4 : List.count x [i] = 0 := by simp [hx]
      omega
  · rw [queueInput_keys]
    by_cases hf : (st.queue.find? (fun e => e.1 = i.step)).isSome
    · rw [if_pos hf]; exact hkeys
    · rw [if_neg hf]
      rw [List.nodup_append]
      refine ⟨hkeys, List.nodup_singleton _, ?_⟩
      intro k hk hk'
      rw [List.mem_singleton.mp hk'] at hk
      have hnone : st.queue.find? (fun e => e.1 = i.step) = none :=
        Option.not_isSome_iff_eq_none.mp hf
      rw [List.find?_eq_none] at hnone
      obtain ⟨e1, he1, hk1⟩ := List.mem_map.mp hk
      exact absurd hk1 (by simpa using hnone e1 he1)

/-- Any server step preserves the accounting invariant: the popped
bucket moves whole into the dispatch log and is deleted. -/
theorem serverCountInv_step (A : List SInput) (st : ServerState)
    (hinv : ServerCountInv A st) :
    ServerCountInv A (serverTransition st .serverStep) := by
  obtain ⟨hcount, hkeys⟩ := hinv
  simp only [serverTransition]
  rcases hmin : (st.queue.map Prod.fst).min? with _ | m
  · rw [dispatchMinBucket_eq_none st.queue st.stepCount hmin]
    exact ⟨fun x => by simpa using hcount x, hkeys⟩
  · by_cases hm : m ≤ st.stepCount
    · rw [dispatchMinBucket_eq_pop st.queue st.stepCount m hmin hm]
      obtain ⟨hmmem, hmle⟩ := natList_min_spec hmin
      refine ⟨?_, ?_⟩
      · intro x
        have hpop := queueFlat_pop_count m x st.queue hkeys hmmem
        have := hcount x
        simp only [List.count_append]
        omega
      · exact List.Nodup.sublist ((List.filter_sublist st.queue).map Prod.fst) hkeys
    · rw [dispatchMinBucket_eq_late st.queue st.stepCount m hmin hm]
      exact ⟨fun x => by simpa using hcount x, hkeys⟩

/-- The accounting invariant holds after any trace, unconditionally. -/
theorem runServer_count_loop (evs : List ServerEvent) :
    ∀ (A : List SInput) (st : ServerState),
      ServerCountInv A st →
      ServerCountInv (A ++ arrivalsOf evs) (List.foldl serverTransition st evs) := by
  induction evs with
  | nil =>
    intro A st hinv
    simpa [arrivalsOf] using hinv
  | cons ev rest ih =>
    intro A st hinv
    cases ev with
    | serverStep =>
      have harr : arrivalsOf (ServerEvent.serverStep :: rest) = arrivalsOf rest := by
        simp [arrivalsOf]
      rw [harr, List.foldl_cons]
      exact ih A (serverTransition st .serverStep) (serverCountInv_step A st hinv)
    | receiveInput i =>
      have harr : arrivalsOf (ServerEvent.receiveInput i :: rest) =
          i :: arrivalsOf rest := by
        simp [arrivalsOf]
      rw [harr, List.foldl_cons]
      have hmain := ih (A ++ [i]) (serverTransition st (.receiveInput i))
        (serverCountInv_receive A st i hinv)
      rwa [List.append_assoc, List.singleton_append] at hmain

/-- The server-trace invariant (for ascending arrivals): the dispatch
log followed by the queue's contents is exactly the arrival list, the
queue is well-formed (non-empty buckets filed under their own keys,
unique keys), and the buckets appear in ascending key order (ascending
arrivals create buckets in ascending key order, and pops remove the
front). -/
def ServerInv (A : List SInput) (st : ServerState) : Prop :=
  st.processed ++ queueFlat st.queue = A ∧
  (∀ e ∈ st.queue, e.2 ≠ [] ∧ ∀ j ∈ e.2, j.step = e.1) ∧
  (st.queue.map Prod.fst).Nodup ∧
  (st.queue.map Prod.fst).Sorted (· ≤ ·)

/-- Enqueueing an input whose step is at least every pending key appends
it to the end of the queue's contents. -/
theorem queueFlat_enqueue_append (i : SInput) :
    ∀ q : PQueue, (q.map Prod.fst).Sorted (· ≤ ·) → (q.map Prod.fst).Nodup →
      (∀ k ∈ q.map Prod.fst, k ≤ i.step) →
      queueFlat (queueInputForPlayer q i) = queueFlat q ++ [i] := by
  intro q
  induction q with
  | nil => intro _ _ _; rfl
  | cons e t ih =>
    intro hsort hnd hle
    rw [List.map_cons] at hsort hnd hle
    have hheadle := (List.sorted_cons.mp hsort).1
    have hsortt := (List.sorted_cons.mp hsort).2
    obtain ⟨hhead, htail⟩ := List.nodup_cons.mp hnd
    by_cases he : e.1 = i.step
    · have ht : t = [] := by
        rcases t with _ | ⟨e1, t1⟩
        · rfl
        · exfalso
          have h1 : e.1 ≤ e1.1 :=
            hheadle e1.1 (by rw [List.map_cons]; exact List.mem_cons_self _ _)
          have h2 : e1.1 ≤ i.step :=
            hle e1.1 (List.mem_cons_of_mem _
              (by rw [List.map_cons]; exact List.mem_cons_self _ _))
          have h3 : e1.1 = e.1 := le_antisymm (by omega) h1
          exact hhead (by rw [List.map_cons, ← h3]; exact List.mem_cons_self _ _)
      subst ht
      rw [queueInputForPlayer_cons_eq e [] i he (by simp)]
      simp [queueFlat]
    · rw [queueInputForPlayer_cons_ne e t i he]
      have hrec := ih hsortt htail (fun k hk => hle k (List.mem_cons_of_mem _ hk))
      simp only [queueFlat, List.map_cons, List.flatten_cons] at hrec ⊢
      rw [hrec, List.append_assoc]

/-- Popping the minimal bucket of a key-sorted queue with unique keys
splits its contents at the front. -/
theorem queueFlat_pop_append (q : PQueue) (m : ℕ)
    (hsort : (q.map Prod.fst).Sorted (· ≤ ·)) (hnd : (q.map Prod.fst).Nodup)
    (hmin : (q.map Prod.fst).min? = some m) :
    ((q.find? (fun e => e.1 = m)).map Prod.snd).getD [] ++
      queueFlat (q.filter (fun e => ¬ e.1 = m)) = queueFlat q := by
  obtain ⟨hmmem, hmle⟩ := natList_min_spec hmin
  rcases q with _ | ⟨e, t⟩
  · cases hmmem
  · rw [List.map_cons] at hsort hnd hmmem hmle
    have hheadle := (List.sorted_cons.mp hsort).1
    obtain ⟨hhead, htail⟩ := List.nodup_cons.mp hnd
    have he1 : e.1 = m := by
      rcases List.mem_cons.mp hmmem with hc | hc
      · exact hc.symm
      · exact le_antisymm (hheadle m hc) (hmle e.1 (List.mem_cons_self _ _))
    rw [List.find?_cons_of_pos _ (by simpa using he1)]
    have hfilt : t.filter (fun e => ¬ e.1 = m) = t := by
      apply List.filter_eq_self.mpr
      intro a ha
      have : ¬ a.1 = m := by
        intro hc
        exact hhead (by rw [he1, ← hc]; exact List.mem_map_of_mem Prod.fst ha)
      simpa using this
    have hdrop : (e :: t).filter (fun e => ¬ e.1 = m) = t := by
      rw [List.filter_cons, if_neg (by simp [he1]), hfilt]
    rw [hdrop]
    simp [queueFlat]

/-- Receiving an input whose step is at least every pending key
preserves the invariant, the arrivals growing by that input. -/
theorem serverInv_receive (A : List SInput) (st : ServerState) (i : SInput)
    (hinv : ServerInv A st)
    (hkle : ∀ k ∈ st.queue.map Prod.fst, k ≤ i.step) :
    ServerInv (A ++ [i]) (serverTransition st (.receiveInput i)) := by
  obtain ⟨hpre, hwf, hkeys, hsort⟩ := hinv
  simp only [serverTransition]
  refine ⟨?_, queueInput_wf st.queue i hwf, ?_, ?_⟩
  · dsimp only
    rw [queueFlat_enqueue_append i st.queue hsort hkeys hkle, ← List.append_assoc,
      hpre]
  · rw [queueInput_keys]
    by_cases hf : (st.queue.find? (fun e => e.1 = i.step)).isSome
    · rw [if_pos hf]; exact hkeys
    · rw [if_neg hf]
      rw [List.nodup_append]
      refine ⟨hkeys, List.nodup_singleton _, ?_⟩
      intro k hk hk'
      rw [List.mem_singleton.mp hk'] at hk
      have hnone : st.queue.find? (fun e => e.1 = i.step) = none :=
        Option.not_isSome_iff_eq_none.mp hf
      rw [List.find?_eq_none] at hnone
      obtain ⟨e1, he1, hk1⟩ := List.mem_map.mp hk
      exact absurd hk1 (by simpa using hnone e1 he1)
  · rw [queueInput_keys]
    by_cases hf : (st.queue.find? (fun e => e.1 = i.step)).isSome
    · rw [if_pos hf]; exact hsort
    · rw [if_neg hf]
      rw [List.Sorted, List.pairwise_append]
      refine ⟨hsort, List.sorted_singleton _, ?_⟩
      intro a ha b hb
      rw [List.mem_singleton.mp hb]
      exact hkle a ha

/-- One server step preserves the invariant (same arrivals). -/
theorem serverInv_step (A : List SInput) (st : ServerState)
    (hinv : ServerInv A st) : ServerInv A (serverTransition st .serverStep) := by
  obtain ⟨hpre, hwf, hkeys, hsort⟩ := hinv
  simp only [serverTransition]
  rcases hmin : (st.queue.map Prod.fst).min? with _ | m
  · rw [dispatchMinBucket_eq_none st.queue st.stepCount hmin]
    exact ⟨by simpa using hpre, hwf, hkeys, hsort⟩
  · by_cases hm : m ≤ st.stepCount
    · rw [dispatchMinBucket_eq_pop st.queue st.stepCount m hmin hm]
      have hsubkeys : ((st.queue.filter (fun e => ¬ e.1 = m)).map Prod.fst).Sublist
          (st.queue.map Prod.fst) := (List.filter_sublist st.queue).map Prod.fst
      refine ⟨?_, ?_, ?_, ?_⟩
      · dsimp only
        rw [List.append_assoc, queueFlat_pop_append st.queue m hsort hkeys hmin,
          hpre]
      · intro e he
        exact hwf e (List.mem_of_mem_filter he)
      · exact List.Nodup.sublist hsubkeys hkeys
      · exact List.Pairwise.sublist hsubkeys hsort
    · rw [dispatchMinBucket_eq_late st.queue st.stepCount m hmin hm]
      exact ⟨by simpa using hpre, hwf, hkeys, hsort⟩

/-- Running a trace whose arrivals (appended to those so far) carry
non-decreasing steps preserves the invariant. -/
theorem runServer_loop (evs : List ServerEvent) :
    ∀ (A : List SInput) (st : ServerState),
      ServerInv A st →
      ((A ++ arrivalsOf evs).map SInput.step).Sorted (· ≤ ·) →
      ServerInv (A ++ arrivalsOf evs) (List.foldl serverTransition st evs) := by
  induction evs with
  | nil =>
    intro A st hinv _
    simpa [arrivalsOf] using hinv
  | cons ev rest ih =>
    intro A st hinv hs
    cases ev with
    | serverStep =>
      have harr : arrivalsOf (ServerEvent.serverStep :: rest) = arrivalsOf rest := by
        simp [arrivalsOf]
      rw [harr] at hs ⊢
      rw [List.foldl_cons]
      exact ih A (serverTransition st .serverStep) (serverInv_step A st hinv) hs
    | receiveInput i =>
      have harr : arrivalsOf (ServerEvent.receiveInput i :: rest) =
          i :: arrivalsOf rest := by
        simp [arrivalsOf]
      rw [harr] at hs ⊢
      obtain ⟨hpre, hwf, hkeys, hsort⟩ := hinv
      have hAle : ∀ a ∈ A, a.step ≤ i.step := by
        intro a ha
        rw [List.map_append] at hs
        have hcross := (List.pairwise_append.mp hs).2.2
        exact hcross a.step (List.mem_map_of_mem SInput.step ha) i.step
          (by rw [List.map_cons]; exact List.mem_cons_self _ _)
      have hkle : ∀ k ∈ st.queue.map Prod.fst, k ≤ i.step := by
        intro k hk
        obtain ⟨e0, he0, rfl⟩ := List.mem_map.mp hk
        obtain ⟨hne, hsteps⟩ := hwf e0 he0
        rcases hl : e0.2 with _ | ⟨j0, t0⟩
        · exact absurd hl hne
        · have hj0 : j0 ∈ queueFlat st.queue := by
            unfold queueFlat
            rw [List.mem_flatten]
            exact ⟨e0.2, List.mem_map_of_mem Prod.snd he0,
              by rw [hl]; exact List.mem_cons_self _ _⟩
          have hjA : j0 ∈ A := by
            rw [← hpre]
            exact List.mem_append_right _ hj0
          have := hAle j0 hjA
          rw [hsteps j0 (by rw [hl]; exact List.mem_cons_self _ _)] at this
          exact this
      have hinv' := serverInv_receive A st i ⟨hpre, hwf, hkeys, hsort⟩ hkle
      rw [List.foldl_cons]
      have hs' : (((A ++ [i]) ++ arrivalsOf rest).map SInput.step).Sorted (· ≤ ·) := by
        rw [List.append_assoc, List.singleton_append]
        exact hs
      have hmain := ih (A ++ [i]) (serverTransition st (.receiveInput i)) hinv' hs'
      rwa [List.append_assoc, List.singleton_append] at hmain

/-- C4: along every server trace, unconditionally — with no assumption
on the order or distinctness of the arrivals — each input value reaches
`gameEngine.processInput` at most as often as it arrived, and every
dispatched input is among the arrivals: each `ServerEngine.step` pops at
most one step bucket per player (the one with the smallest key, and only
once that key is at most the current `stepCount`) and deletes it, so a
popped bucket's inputs can never be re-dispatched, even when a late
out-of-order input re-creates the same step key.  With pairwise-distinct
arrivals the dispatch log is therefore duplicate-free; and for a socket
whose inputs arrive in ascending step order, the dispatch log is a
prefix of the arrival list (dispatch in arrival order) and its steps are
ascending. -/
theorem server_input_dispatch_spec (evs : List ServerEvent) :
    (∀ x : SInput,
      (runServer evs).processed.count x ≤ (arrivalsOf evs).count x) ∧
    (∀ i ∈ (runServer evs).processed, i ∈ arrivalsOf evs) ∧
    ((arrivalsOf evs).Nodup → (runServer evs).processed.Nodup) ∧
    (((arrivalsOf evs).map SInput.step).Sorted (· ≤ ·) →
      (∃ pending, (runServer evs).processed ++ pending = arrivalsOf evs) ∧
      ((runServer evs).processed.map SInput.step).Sorted (· ≤ ·)) := by
  have hrs : List.foldl serverTransition initialServerState evs = runServer evs := rfl
  have hcinv0 : ServerCountInv [] initialServerState :=
    ⟨fun _ => rfl, List.nodup_nil⟩
  have hc := runServer_count_loop evs [] initialServerState hcinv0
  rw [List.nil_append, hrs] at hc
  obtain ⟨hcount, hkeys⟩ := hc
  have hcle : ∀ x : SInput,
      (runServer evs).processed.count x ≤ (arrivalsOf evs).count x := by
    intro x
    have := hcount x
    omega
  refine ⟨hcle, ?_, ?_, ?_⟩
  · intro i hi
    have hpos := List.count_pos_iff.mpr hi
    have := hcle i
    exact List.count_pos_iff.mp (by omega)
  · intro hnd
    rw [List.nodup_iff_count_le_one]
    intro x
    have h2 := List.nodup_iff_count_le_one.mp hnd x
    have := hcle x
    omega
  · intro hsorted
    have hinv0 : ServerInv [] initialServerState :=
      ⟨rfl, fun e he => absurd he (List.not_mem_nil e), List.nodup_nil,
        List.sorted_nil⟩
    have h := runServer_loop evs [] initialServerState hinv0 (by simpa using hsorted)
    rw [List.nil_append, hrs] at h
    obtain ⟨hpre, hwf, hkeys2, hsortk⟩ := h
    have hsub : (runServer evs).processed.Sublist (arrivalsOf evs) := by
      rw [← hpre]
      exact List.sublist_append_left _ _
    exact ⟨⟨queueFlat (runServer evs).queue, hpre⟩,
      List.Pairwise.sublist (hsub.map SInput.step) hsorted⟩

/-- Witness for C4, on two concrete traces.  First, inputs for steps
0, 1, 2 arrive ascending and distinct: the dispatch log is exactly the
arrival list, duplicate-free and in step order (discharging the
distinctness and ascending-order hypotheses of the conditional
conjuncts).  Second, the re-dispatch stress case outside any ordering
assumption: an input for step 6 is dispatched and its bucket deleted,
then a late input for step 5 arrives out of order and re-creates a
fresh low bucket — the log ends as exactly one dispatch of each input,
and the at-most-once bound is instantiated at the late input. -/
theorem server_input_dispatch_spec_witness :
    ((arrivalsOf [.receiveInput ⟨0, 0⟩, .receiveInput ⟨1, 1⟩, .serverStep,
        .serverStep, .receiveInput ⟨2, 2⟩, .serverStep]).Nodup ∧
      (runServer [.receiveInput ⟨0, 0⟩, .receiveInput ⟨1, 1⟩, .serverStep,
        .serverStep, .receiveInput ⟨2, 2⟩, .serverStep]).processed.Nodup) ∧
    ((runServer [.receiveInput ⟨0, 0⟩, .receiveInput ⟨1, 1⟩, .serverStep,
        .serverStep, .receiveInput ⟨2, 2⟩, .serverStep]).processed.map
      SInput.step).Sorted (· ≤ ·) ∧
    (runServer [.receiveInput ⟨0, 0⟩, .receiveInput ⟨1, 1⟩, .serverStep,
        .serverStep, .receiveInput ⟨2, 2⟩, .serverStep]).processed =
      [⟨0, 0⟩, ⟨1, 1⟩, ⟨2, 2⟩] ∧
    (runServer [.receiveInput ⟨0, 6⟩, .serverStep, .serverStep, .serverStep,
        .serverStep, .serverStep, .serverStep, .serverStep,
        .receiveInput ⟨1, 5⟩, .serverStep]).processed.count ⟨1, 5⟩ ≤
      (arrivalsOf [.receiveInput ⟨0, 6⟩, .serverStep, .serverStep, .serverStep,
        .serverStep, .serverStep, .serverStep, .serverStep,
        .receiveInput ⟨1, 5⟩, .serverStep]).count ⟨1, 5⟩ ∧
    (runServer [.receiveInput ⟨0, 6⟩, .serverStep, .serverStep, .serverStep,
        .serverStep, .serverStep, .serverStep, .serverStep,
        .receiveInput ⟨1, 5⟩, .serverStep]).processed = [⟨0, 6⟩, ⟨1, 5⟩] := by
  have hasc := server_input_dispatch_spec
    [.receiveInput ⟨0, 0⟩, .receiveInput ⟨1, 1⟩, .serverStep,
      .serverStep, .receiveInput ⟨2, 2⟩, .serverStep]
  have hooo := server_input_dispatch_spec
    [.receiveInput ⟨0, 6⟩, .serverStep, .serverStep, .serverStep,
      .serverStep, .serverStep, .serverStep, .serverStep,
      .receiveInput ⟨1, 5⟩, .serverStep]
  exact ⟨⟨by decide, hasc.2.2.1 (by decide)⟩, (hasc.2.2.2 (by decide)).2,
    by decide, hooo.1 ⟨1, 5⟩, by decide⟩

end Lance
